import Mathlib

/-!
Shallow embedding of the settlement engine of the smart-splitter app
(`calculate_split` in `app.py`), together with theorems about its
behaviour.  Monetary quantities are modelled as rationals; Python's
`round(x, 0)` (round half to even) is modelled by `pyRound`; Python
dicts are modelled as association lists with first-match lookup.
-/

namespace SmartSplitter

/-- An expense event as consumed by `calculate_split`: name, amount,
currency code, participant list, and the `paid_by` mapping from person
to the amount they advanced (in the event's currency). -/
structure Event where
  event_name : String
  amount : ℚ
  currency : String
  participants : List String
  paid_by : List (String × ℚ)
deriving DecidableEq

/-- One contribution tuple appended to `transactions` in the event loop
of `calculate_split`. -/
structure Txn where
  person : String
  amount_paid : ℚ
  amount_owed : ℚ
deriving DecidableEq

/-- One row of the `summary` data frame built by `calculate_split`. -/
structure Row where
  person : String
  total_paid : ℚ
  total_owed : ℚ
  net_balance : ℚ
deriving DecidableEq

/-- One settlement transfer appended to `payments` by the matching
loop: `from_` pays `to` the given `amount`. -/
structure Payment where
  from_ : String
  to_ : String
  amount : ℚ
deriving DecidableEq

/-- Python's `dict.get(k, 0)` on an association list. -/
def dictGet (d : List (String × ℚ)) (k : String) : ℚ :=
  (d.lookup k).getD 0

/-- Python's `round(x, 0)`: round to the nearest integer, ties to the
even integer (banker's rounding). -/
def pyRound (x : ℚ) : ℚ :=
  if x - (x.floor : ℚ) < 1/2 then (x.floor : ℚ)
  else if 1/2 < x - (x.floor : ℚ) then ((x.floor + 1 : ℤ) : ℚ)
  else if x.floor % 2 = 0 then (x.floor : ℚ) else ((x.floor + 1 : ℤ) : ℚ)

/-- The currency multiplier of `calculate_split` (`app.py` lines
221-224): `1.0` when the currency is absent from the rate table or its
rate is `0`, otherwise `1 / rates[currency]`. -/
def rateMultiplier (rates : List (String × ℚ)) (c : String) : ℚ :=
  match rates.lookup c with
  | none => 1
  | some q => if q = 0 then 1 else 1 / q

/-- The contribution tuples one event adds to `transactions`
(`app.py` lines 212-237): a voided event (no participants or
non-positive amount) adds nothing; otherwise each participant gets a
tuple with their converted paid amount and the equal per-person share
of the converted total. -/
def eventTxns (rates : List (String × ℚ)) (e : Event) : List Txn :=
  if e.participants.length = 0 ∨ e.amount ≤ 0 then []
  else
    e.participants.map (fun p =>
      ⟨p, dictGet e.paid_by p * rateMultiplier rates e.currency,
        e.amount * rateMultiplier rates e.currency / (e.participants.length : ℚ)⟩)

/-- The full `transactions` list built by the event loop. -/
def transactions (data : List Event) (rates : List (String × ℚ)) : List Txn :=
  (data.map (eventTxns rates)).flatten

/-- Ascending order on strings, as pandas `groupby` sorts group keys. -/
def strOrd (a b : String) : Prop := ¬ b < a

instance : DecidableRel strOrd := fun a b =>
  inferInstanceAs (Decidable (¬ b < a))

/-- The distinct persons of the transaction list, in ascending order
(pandas `groupby('person')` sorts its keys). -/
def personsOf (txns : List Txn) : List String :=
  List.insertionSort strOrd ((txns.map Txn.person).dedup)

/-- `total_paid` of one person: sum of their `amount_paid` entries. -/
def totalPaidOf (txns : List Txn) (p : String) : ℚ :=
  ((txns.filter (fun t => t.person == p)).map Txn.amount_paid).sum

/-- `total_owed` of one person: sum of their `amount_owed` entries. -/
def totalOwedOf (txns : List Txn) (p : String) : ℚ :=
  ((txns.filter (fun t => t.person == p)).map Txn.amount_owed).sum

/-- The `summary` frame: one row per person with summed paid and owed
amounts and `net_balance = total_paid - total_owed`. -/
def summaryOf (txns : List Txn) : List Row :=
  (personsOf txns).map (fun p =>
    ⟨p, totalPaidOf txns p, totalOwedOf txns p,
      totalPaidOf txns p - totalOwedOf txns p⟩)

/-- Descending order of rows by `net_balance` (creditor sort key). -/
def descNB (a b : Row) : Prop := b.net_balance ≤ a.net_balance

instance : DecidableRel descNB := fun a b =>
  inferInstanceAs (Decidable (b.net_balance ≤ a.net_balance))

/-- Ascending order of rows by `net_balance` (debtor sort key). -/
def ascNB (a b : Row) : Prop := a.net_balance ≤ b.net_balance

instance : DecidableRel ascNB := fun a b =>
  inferInstanceAs (Decidable (a.net_balance ≤ b.net_balance))

/-- The creditor rows: positive `net_balance`, sorted descending. -/
def credRows (s : List Row) : List Row :=
  List.insertionSort descNB (s.filter (fun r => decide (0 < r.net_balance)))

/-- The debtor rows: negative `net_balance`, sorted ascending. -/
def debtRows (s : List Row) : List Row :=
  List.insertionSort ascNB (s.filter (fun r => decide (r.net_balance < 0)))

/-- `creditors_list` of `calculate_split`: each creditor paired with
their net balance rounded to the nearest whole unit. -/
def creditorsListOf (s : List Row) : List (String × ℚ) :=
  (credRows s).map (fun r => (r.person, pyRound r.net_balance))

/-- `debtors_list` of `calculate_split`: each debtor paired with the
magnitude of their net balance rounded to the nearest whole unit. -/
def debtorsListOf (s : List Row) : List (String × ℚ) :=
  (debtRows s).map (fun r => (r.person, pyRound |r.net_balance|))

/-- The greedy matching loop of `calculate_split` (`app.py` lines
258-277): pop the front creditor and debtor, transfer the minimum of
the two remaining amounts, and reinsert at the front whichever side
still has a remainder above the `0.01` tolerance. -/
def settleLoop : List (String × ℚ) → List (String × ℚ) → List Payment
  | [], _ => []
  | _ :: _, [] => []
  | (cn, ca) :: cs, (dn, da) :: ds =>
    ⟨dn, cn, min ca da⟩ ::
      settleLoop
        (if 1/100 < ca - min ca da then (cn, ca - min ca da) :: cs else cs)
        (if 1/100 < da - min ca da then (dn, da - min ca da) :: ds else ds)
termination_by cs ds => cs.length + ds.length
decreasing_by
  rcases le_total ca da with h | h
  · rw [min_eq_left h]
    rw [dif_neg (by simp : ¬ ((1:ℚ)/100 < ca - ca))]
    split <;> simp [List.length_cons] <;> omega
  · rw [min_eq_right h]
    rw [dif_neg (by simp : ¬ ((1:ℚ)/100 < da - da))]
    split <;> simp [List.length_cons] <;> omega

/-- The settlement engine (`calculate_split` in `app.py`): returns the
per-person summary (absent when no contributions exist) and the list
of settling transfers. -/
def calculate_split (data : List Event) (rates : List (String × ℚ)) :
    Option (List Row) × List Payment :=
  let txns := transactions data rates
  if txns.isEmpty then (none, [])
  else
    (some (summaryOf txns),
      settleLoop (creditorsListOf (summaryOf txns)) (debtorsListOf (summaryOf txns)))

/-- Sum of the amounts carried by entries of an association list whose
key is `p`. -/
def keyedSum (p : String) (l : List (String × ℚ)) : ℚ :=
  ((l.filter (fun x => x.1 == p)).map Prod.snd).sum

/-- Sum of all amounts of an association list. -/
def sumAmts (l : List (String × ℚ)) : ℚ :=
  (l.map Prod.snd).sum

/-- The (recipient, amount) pairs of a payment list. -/
def toPairs (pays : List Payment) : List (String × ℚ) :=
  pays.map (fun t => (t.to_, t.amount))

/-- The (sender, amount) pairs of a payment list. -/
def fromPairs (pays : List Payment) : List (String × ℚ) :=
  pays.map (fun t => (t.from_, t.amount))

/-- Total amount received by person `p` across a payment list. -/
def recvBy (p : String) (pays : List Payment) : ℚ :=
  keyedSum p (toPairs pays)

/-- Total amount sent by person `p` across a payment list. -/
def sentBy (p : String) (pays : List Payment) : ℚ :=
  keyedSum p (fromPairs pays)

/-- Total amount moved by a payment list. -/
def sumPayments (pays : List Payment) : ℚ :=
  (pays.map Payment.amount).sum

/-- Sum, over all creditors of a summary, of their rounded net
balance. -/
def creditRoundSum (s : List Row) : ℚ :=
  ((s.filter (fun r => decide (0 < r.net_balance))).map
    (fun r => pyRound r.net_balance)).sum

/-- Sum, over all debtors of a summary, of their rounded debt
magnitude. -/
def debitRoundSum (s : List Row) : ℚ :=
  ((s.filter (fun r => decide (r.net_balance < 0))).map
    (fun r => pyRound |r.net_balance|)).sum

/-- Concrete event: 3.9 split three ways, A advances 3.0 and
B advances 0.9. -/
def evA : Event :=
  ⟨"meal", 39/10, "JPY", ["A", "B", "C"], [("A", 3), ("B", 9/10)]⟩

/-- Concrete event: 0.6 split two ways, A advances all of it. -/
def evB : Event :=
  ⟨"snack", 3/5, "JPY", ["A", "B"], [("A", 3/5)]⟩

/-- Concrete event in a foreign currency: 8 USD split two ways. -/
def evUSD : Event :=
  ⟨"trip", 8, "USD", ["A", "B"], [("A", 8)]⟩

/-- Concrete voided event: no participants. -/
def evVoid : Event :=
  ⟨"void", 5, "JPY", [], []⟩

/-! Basic lemmas about `pyRound`. -/

lemma ratFloor_eq_intFloor (x : ℚ) : x.floor = ⌊x⌋ := by
  rw [Rat.floor_def', Rat.floor_def]

lemma pyRound_spec (x : ℚ) :
    pyRound x = (⌊x⌋ : ℚ) ∨ pyRound x = (⌊x⌋ : ℚ) + 1 := by
  unfold pyRound
  rw [ratFloor_eq_intFloor]
  by_cases h1 : x - ((⌊x⌋ : ℤ) : ℚ) < 1/2
  · rw [if_pos h1]; left; rfl
  · rw [if_neg h1]
    by_cases h2 : 1/2 < x - ((⌊x⌋ : ℤ) : ℚ)
    · rw [if_pos h2]; right; push_cast; ring
    · rw [if_neg h2]
      by_cases h3 : ⌊x⌋ % 2 = 0
      · rw [if_pos h3]; left; rfl
      · rw [if_neg h3]; right; push_cast; ring

lemma pyRound_exists_int (x : ℚ) : ∃ k : ℤ, pyRound x = (k : ℚ) := by
  rcases pyRound_spec x with h | h
  · exact ⟨⌊x⌋, h⟩
  · exact ⟨⌊x⌋ + 1, by rw [h]; push_cast; ring⟩

lemma pyRound_nonneg {x : ℚ} (hx : 0 ≤ x) : 0 ≤ pyRound x := by
  have h0 : (0 : ℤ) ≤ ⌊x⌋ := Int.floor_nonneg.mpr hx
  have h0' : (0 : ℚ) ≤ ((⌊x⌋ : ℤ) : ℚ) := by exact_mod_cast h0
  rcases pyRound_spec x with h | h <;> rw [h] <;> linarith

lemma pyRound_exists_nat {x : ℚ} (hx : 0 ≤ x) : ∃ n : ℕ, pyRound x = (n : ℚ) := by
  obtain ⟨k, hk⟩ := pyRound_exists_int x
  have hk0 : (0 : ℤ) ≤ k := by
    have := pyRound_nonneg hx
    rw [hk] at this
    exact_mod_cast this
  exact ⟨k.toNat, by rw [hk]; exact_mod_cast (Int.toNat_of_nonneg hk0).symm⟩

lemma abs_sub_pyRound_le (x : ℚ) : |x - pyRound x| ≤ 1/2 := by
  have h0 : ((⌊x⌋ : ℤ) : ℚ) ≤ x := Int.floor_le x
  have h1 : x < ((⌊x⌋ : ℤ) : ℚ) + 1 := Int.lt_floor_add_one x
  unfold pyRound
  rw [ratFloor_eq_intFloor]
  split
  · next h => rw [abs_le]; constructor <;> linarith
  · next h =>
    split
    · next h2 => rw [abs_le]; push_cast; constructor <;> linarith
    · next h2 =>
      have he : x - ((⌊x⌋ : ℤ) : ℚ) = 1/2 := le_antisymm (not_lt.mp h2) (not_lt.mp h)
      split <;> rw [abs_le] <;> push_cast <;> constructor <;> linarith

/-! Equation lemmas for `settleLoop`. -/

lemma settleLoop_nil_left (ds : List (String × ℚ)) : settleLoop [] ds = [] := by
  rw [settleLoop]

lemma settleLoop_nil_right (c : String × ℚ) (cs : List (String × ℚ)) :
    settleLoop (c :: cs) [] = [] := by
  rw [settleLoop]

lemma settleLoop_cons (cn : String) (ca : ℚ) (cs : List (String × ℚ))
    (dn : String) (da : ℚ) (ds : List (String × ℚ)) :
    settleLoop ((cn, ca) :: cs) ((dn, da) :: ds) =
      ⟨dn, cn, min ca da⟩ ::
        settleLoop
          (if 1/100 < ca - min ca da then (cn, ca - min ca da) :: cs else cs)
          (if 1/100 < da - min ca da then (dn, da - min ca da) :: ds else ds) := by
  rw [settleLoop]

/-! Lemmas about `keyedSum` and list sums. -/

lemma keyedSum_nil (p : String) : keyedSum p [] = 0 := rfl

lemma keyedSum_cons (p q : String) (a : ℚ) (l : List (String × ℚ)) :
    keyedSum p ((q, a) :: l) = (if q = p then a else 0) + keyedSum p l := by
  unfold keyedSum
  by_cases h : q = p
  · simp [List.filter_cons, h]
  · simp [List.filter_cons, h]

lemma sumAmts_nil : sumAmts [] = 0 := rfl

lemma sumAmts_cons (q : String) (a : ℚ) (l : List (String × ℚ)) :
    sumAmts ((q, a) :: l) = a + sumAmts l := by
  simp [sumAmts]

lemma sumAmts_nonneg {l : List (String × ℚ)} (h : ∀ x ∈ l, 0 ≤ x.2) :
    0 ≤ sumAmts l := by
  apply List.sum_nonneg
  intro a ha
  obtain ⟨x, hx, rfl⟩ := List.mem_map.mp ha
  exact h x hx

lemma keyedSum_nonneg {l : List (String × ℚ)} (h : ∀ x ∈ l, 0 ≤ x.2) (p : String) :
    0 ≤ keyedSum p l := by
  apply List.sum_nonneg
  intro a ha
  obtain ⟨x, hx, rfl⟩ := List.mem_map.mp ha
  exact h x (List.mem_of_mem_filter hx)

lemma keyedSum_eq_zero_of_not_mem {l : List (String × ℚ)} {p : String}
    (h : p ∉ l.map Prod.fst) : keyedSum p l = 0 := by
  induction l with
  | nil => rfl
  | cons x tl ih =>
    obtain ⟨q, a⟩ := x
    simp only [List.map_cons, List.mem_cons, not_or] at h
    rw [keyedSum_cons, if_neg (fun hqp => h.1 hqp.symm), ih h.2, add_zero]

lemma keyedSum_eq_of_nodup {l : List (String × ℚ)} (h : (l.map Prod.fst).Nodup)
    {q : String} {a : ℚ} (hm : (q, a) ∈ l) : keyedSum q l = a := by
  induction l with
  | nil => cases hm
  | cons x tl ih =>
    obtain ⟨q', a'⟩ := x
    rw [List.map_cons, List.nodup_cons] at h
    rcases List.mem_cons.mp hm with he | htl
    · injection he with hq ha
      subst hq
      subst ha
      rw [keyedSum_cons, if_pos rfl, keyedSum_eq_zero_of_not_mem h.1, add_zero]
    · have hq : q' ≠ q := by
        intro hqq
        exact h.1 (hqq ▸ (List.mem_map.mpr ⟨(q, a), htl, rfl⟩))
      rw [keyedSum_cons, if_neg hq, ih h.2 htl, zero_add]

lemma sum_map_zero_q (l : List String) : (l.map (fun _ => (0:ℚ))).sum = 0 := by
  induction l with
  | nil => rfl
  | cons a tl ih => simp [ih]

lemma sum_map_ite_eq {persons : List String} (hn : persons.Nodup) {q : String}
    (hq : q ∈ persons) (a : ℚ) :
    (persons.map (fun p => if q = p then a else 0)).sum = a := by
  induction persons with
  | nil => cases hq
  | cons x tl ih =>
    rw [List.nodup_cons] at hn
    rcases List.mem_cons.mp hq with rfl | htl
    · rw [List.map_cons, if_pos rfl, List.sum_cons]
      have : ∀ p ∈ tl, (if q = p then a else 0) = 0 := by
        intro p hp
        rw [if_neg]
        intro hqp
        exact hn.1 (hqp ▸ hp)
      rw [List.map_congr_left this, sum_map_zero_q, add_zero]
    · rw [List.map_cons, List.sum_cons, if_neg, ih hn.2 htl, zero_add]
      intro hqx
      exact hn.1 (hqx ▸ htl)

lemma sum_map_add_q (l : List String) (f g : String → ℚ) :
    (l.map (fun p => f p + g p)).sum = (l.map f).sum + (l.map g).sum := by
  induction l with
  | nil => simp
  | cons a tl ih => simp [ih]; ring

lemma sum_keyedSum_eq {persons : List String} (hn : persons.Nodup) :
    ∀ (l : List (String × ℚ)), (∀ x ∈ l, x.1 ∈ persons) →
      (persons.map (fun p => keyedSum p l)).sum = sumAmts l := by
  intro l
  induction l with
  | nil => intro _; simp [keyedSum_nil, sumAmts_nil, sum_map_zero_q]
  | cons x tl ih =>
    intro hmem
    obtain ⟨q, a⟩ := x
    have hq : q ∈ persons := hmem (q, a) (List.mem_cons_self _ _)
    have htl : ∀ x ∈ tl, x.1 ∈ persons := fun x hx => hmem x (List.mem_cons_of_mem _ hx)
    calc (persons.map (fun p => keyedSum p ((q, a) :: tl))).sum
        = (persons.map (fun p => (if q = p then a else 0) + keyedSum p tl)).sum := by
          apply congrArg
          apply List.map_congr_left
          intro p _
          rw [keyedSum_cons]
      _ = (persons.map (fun p => if q = p then a else 0)).sum
            + (persons.map (fun p => keyedSum p tl)).sum := sum_map_add_q ..
      _ = a + sumAmts tl := by rw [sum_map_ite_eq hn hq, ih htl]
      _ = sumAmts ((q, a) :: tl) := (sumAmts_cons ..).symm

lemma eq_of_sum_map_eq_of_le {l : List String} {f g : String → ℚ}
    (hle : ∀ x ∈ l, f x ≤ g x) (hsum : (l.map f).sum = (l.map g).sum) :
    ∀ x ∈ l, f x = g x := by
  induction l with
  | nil => intro x hx; cases hx
  | cons a tl ih =>
    simp only [List.map_cons, List.sum_cons] at hsum
    have h1 : f a ≤ g a := hle a (List.mem_cons_self _ _)
    have h2 : ∀ x ∈ tl, f x ≤ g x := fun x hx => hle x (List.mem_cons_of_mem _ hx)
    have h3 : (tl.map f).sum ≤ (tl.map g).sum := List.sum_le_sum h2
    have h4 : f a = g a := by linarith
    have h5 : (tl.map f).sum = (tl.map g).sum := by linarith
    intro x hx
    rcases List.mem_cons.mp hx with rfl | hxtl
    · exact h4
    · exact ih h2 h5 x hxtl

/-! Small unfolding lemmas for the payment aggregates. -/

lemma toPairs_nil : toPairs [] = [] := rfl

lemma toPairs_cons (t : Payment) (pays : List Payment) :
    toPairs (t :: pays) = (t.to_, t.amount) :: toPairs pays := rfl

lemma fromPairs_nil : fromPairs [] = [] := rfl

lemma fromPairs_cons (t : Payment) (pays : List Payment) :
    fromPairs (t :: pays) = (t.from_, t.amount) :: fromPairs pays := rfl

lemma sumPayments_nil : sumPayments [] = 0 := rfl

lemma sumPayments_cons (t : Payment) (pays : List Payment) :
    sumPayments (t :: pays) = t.amount + sumPayments pays := by
  simp [sumPayments]

lemma hundredth_lt_natCast (m : ℕ) : ((1:ℚ)/100 < (m : ℚ)) ↔ m ≠ 0 := by
  cases m with
  | zero => norm_num
  | succ k =>
    simp only [Ne, Nat.succ_ne_zero, not_false_iff, iff_true]
    have h1 : (1:ℚ) ≤ ((k + 1 : ℕ) : ℚ) := by exact_mod_cast Nat.succ_le_succ (Nat.zero_le k)
    linarith

lemma natAmounts_nonneg {l : List (String × ℚ)}
    (h : ∀ x ∈ l, ∃ m : ℕ, x.2 = (m : ℚ)) : ∀ x ∈ l, 0 ≤ x.2 := by
  intro x hx
  obtain ⟨m, hm⟩ := h x hx
  rw [hm]
  exact Nat.cast_nonneg m

/-- Joint base case for the matching-loop invariants: when the loop
returns no payments and the smaller side is already exhausted. -/
lemma settleLoop_master_base {cs ds : List (String × ℚ)}
    (hloop : settleLoop cs ds = [])
    (hcs : ∀ x ∈ cs, ∃ m : ℕ, x.2 = (m : ℚ))
    (hds : ∀ y ∈ ds, ∃ m : ℕ, y.2 = (m : ℚ))
    (hmin : min (sumAmts cs) (sumAmts ds) = 0) :
    (settleLoop cs ds).length ≤ cs.length + ds.length - 1 ∧
    (∀ t ∈ settleLoop cs ds,
      (∃ x ∈ cs, t.to_ = x.1) ∧ (∃ y ∈ ds, t.from_ = y.1) ∧
        ∃ m : ℕ, t.amount = (m : ℚ)) ∧
    (∀ p, keyedSum p (toPairs (settleLoop cs ds)) ≤ keyedSum p cs ∧
          keyedSum p (fromPairs (settleLoop cs ds)) ≤ keyedSum p ds) ∧
    sumPayments (settleLoop cs ds) = min (sumAmts cs) (sumAmts ds) := by
  rw [hloop]
  refine ⟨by simp, by simp, ?_, ?_⟩
  · intro p
    rw [toPairs_nil, fromPairs_nil, keyedSum_nil]
    exact ⟨keyedSum_nonneg (natAmounts_nonneg hcs) p,
      keyedSum_nonneg (natAmounts_nonneg hds) p⟩
  · rw [sumPayments_nil, hmin]

/-- The combined loop invariant of the greedy matching loop, proved by
induction on the total length of the two work-lists: the loop emits at
most `creditors + debtors - 1` payments; every payment names a creditor
of the creditor list and a debtor of the debtor list and moves a whole
(natural) number of units; per person, the amounts received (sent) stay
below that person's creditor (debtor) entries; and the total moved is
the minimum of the two sides' totals. -/
lemma settleLoop_master : ∀ (n : ℕ) (cs ds : List (String × ℚ)),
    cs.length + ds.length ≤ n →
    (∀ x ∈ cs, ∃ m : ℕ, x.2 = (m : ℚ)) →
    (∀ y ∈ ds, ∃ m : ℕ, y.2 = (m : ℚ)) →
    (settleLoop cs ds).length ≤ cs.length + ds.length - 1 ∧
    (∀ t ∈ settleLoop cs ds,
      (∃ x ∈ cs, t.to_ = x.1) ∧ (∃ y ∈ ds, t.from_ = y.1) ∧
        ∃ m : ℕ, t.amount = (m : ℚ)) ∧
    (∀ p, keyedSum p (toPairs (settleLoop cs ds)) ≤ keyedSum p cs ∧
          keyedSum p (fromPairs (settleLoop cs ds)) ≤ keyedSum p ds) ∧
    sumPayments (settleLoop cs ds) = min (sumAmts cs) (sumAmts ds) := by
  intro n
  induction n with
  | zero =>
    intro cs ds hn hcs hds
    rcases cs with _ | ⟨⟨cn, ca⟩, cs⟩
    · refine settleLoop_master_base (settleLoop_nil_left ds) hcs hds ?_
      rw [sumAmts_nil]
      exact min_eq_left (sumAmts_nonneg (natAmounts_nonneg hds))
    · simp at hn
  | succ n ih =>
    intro cs ds hn hcs hds
    rcases cs with _ | ⟨⟨cn, ca⟩, cs⟩
    · refine settleLoop_master_base (settleLoop_nil_left ds) hcs hds ?_
      rw [sumAmts_nil]
      exact min_eq_left (sumAmts_nonneg (natAmounts_nonneg hds))
    rcases ds with _ | ⟨⟨dn, da⟩, ds⟩
    · refine settleLoop_master_base (settleLoop_nil_right _ _) hcs hds ?_
      rw [sumAmts_nil]
      exact min_eq_right (sumAmts_nonneg (natAmounts_nonneg hcs))
    obtain ⟨n1, hn1⟩ := hcs (cn, ca) (List.mem_cons_self _ _)
    obtain ⟨n2, hn2⟩ := hds (dn, da) (List.mem_cons_self _ _)
    have hn1' : ca = (n1 : ℚ) := hn1
    have hn2' : da = (n2 : ℚ) := hn2
    have hcs' : ∀ x ∈ cs, ∃ m : ℕ, x.2 = (m : ℚ) :=
      fun x hx => hcs x (List.mem_cons_of_mem _ hx)
    have hds' : ∀ y ∈ ds, ∃ m : ℕ, y.2 = (m : ℚ) :=
      fun y hy => hds y (List.mem_cons_of_mem _ hy)
    rw [settleLoop_cons]
    rcases le_total ca da with hm | hm
    · -- the creditor is fully drained
      rw [min_eq_left hm]
      rw [if_neg (by simp : ¬ ((1:ℚ)/100 < ca - ca))]
      have hle : n1 ≤ n2 := by
        rw [hn1', hn2'] at hm
        exact_mod_cast hm
      have hsub : da - ca = ((n2 - n1 : ℕ) : ℚ) := by
        rw [hn1', hn2']
        push_cast [hle]
        ring
      by_cases hd : (1:ℚ)/100 < da - ca
      · rw [if_pos hd]
        have hds2 : ∀ y ∈ (dn, da - ca) :: ds, ∃ m : ℕ, y.2 = (m : ℚ) := by
          intro y hy
          rcases List.mem_cons.mp hy with rfl | hy'
          · exact ⟨n2 - n1, hsub⟩
          · exact hds' y hy'
        have hlen : cs.length + ((dn, da - ca) :: ds).length ≤ n := by
          simp only [List.length_cons] at hn ⊢
          omega
        obtain ⟨ihL, ihN, ihK, ihS⟩ := ih cs ((dn, da - ca) :: ds) hlen hcs' hds2
        refine ⟨?_, ?_, ?_, ?_⟩
        · simp only [List.length_cons] at ihL ⊢
          omega
        · intro t ht
          rcases List.mem_cons.mp ht with rfl | ht'
          · exact ⟨⟨(cn, ca), List.mem_cons_self _ _, rfl⟩,
              ⟨(dn, da), List.mem_cons_self _ _, rfl⟩, ⟨n1, hn1'⟩⟩
          · obtain ⟨⟨x, hx, hxe⟩, ⟨y, hy, hye⟩, hamt⟩ := ihN t ht'
            refine ⟨⟨x, List.mem_cons_of_mem _ hx, hxe⟩, ?_, hamt⟩
            rcases List.mem_cons.mp hy with rfl | hy'
            · exact ⟨(dn, da), List.mem_cons_self _ _, hye⟩
            · exact ⟨y, List.mem_cons_of_mem _ hy', hye⟩
        · intro p
          rw [toPairs_cons, fromPairs_cons, keyedSum_cons, keyedSum_cons,
            keyedSum_cons, keyedSum_cons]
          have hK := ihK p
          rw [keyedSum_cons] at hK
          constructor
          · exact add_le_add_left hK.1 _
          · by_cases hp : dn = p
            · rw [if_pos hp] at hK ⊢
              rw [if_pos hp]
              linarith [hK.2]
            · rw [if_neg hp] at hK ⊢
              rw [if_neg hp]
              linarith [hK.2]
          -- silence unused: nothing
        · rw [sumPayments_cons, ihS, sumAmts_cons, sumAmts_cons, sumAmts_cons,
            ← min_add_add_left]
          congr 1
          ring
      · rw [if_neg hd]
        have h0 : n2 - n1 = 0 := by
          by_contra h0
          exact hd (hsub ▸ (hundredth_lt_natCast _).mpr h0)
        have heq : da = ca := by
          have h2 : n2 = n1 := by omega
          rw [hn1', hn2', h2]
        have hlen : cs.length + ds.length ≤ n := by
          simp only [List.length_cons] at hn
          omega
        obtain ⟨ihL, ihN, ihK, ihS⟩ := ih cs ds hlen hcs' hds'
        refine ⟨?_, ?_, ?_, ?_⟩
        · simp only [List.length_cons] at ihL ⊢
          omega
        · intro t ht
          rcases List.mem_cons.mp ht with rfl | ht'
          · exact ⟨⟨(cn, ca), List.mem_cons_self _ _, rfl⟩,
              ⟨(dn, da), List.mem_cons_self _ _, rfl⟩, ⟨n1, hn1'⟩⟩
          · obtain ⟨⟨x, hx, hxe⟩, ⟨y, hy, hye⟩, hamt⟩ := ihN t ht'
            exact ⟨⟨x, List.mem_cons_of_mem _ hx, hxe⟩,
              ⟨y, List.mem_cons_of_mem _ hy, hye⟩, hamt⟩
        · intro p
          rw [toPairs_cons, fromPairs_cons, keyedSum_cons, keyedSum_cons,
            keyedSum_cons, keyedSum_cons]
          have hK := ihK p
          constructor
          · exact add_le_add_left hK.1 _
          · by_cases hp : dn = p
            · rw [if_pos hp, if_pos hp, heq]
              linarith [hK.2]
            · rw [if_neg hp, if_neg hp]
              linarith [hK.2]
        · rw [sumPayments_cons, ihS, sumAmts_cons, sumAmts_cons,
            ← min_add_add_left, heq]
    · -- the debtor is fully drained
      rw [min_eq_right hm]
      rw [if_neg (by simp : ¬ ((1:ℚ)/100 < da - da))]
      have hle : n2 ≤ n1 := by
        rw [hn1', hn2'] at hm
        exact_mod_cast hm
      have hsub : ca - da = ((n1 - n2 : ℕ) : ℚ) := by
        rw [hn1', hn2']
        push_cast [hle]
        ring
      by_cases hc : (1:ℚ)/100 < ca - da
      · rw [if_pos hc]
        have hcs2 : ∀ x ∈ (cn, ca - da) :: cs, ∃ m : ℕ, x.2 = (m : ℚ) := by
          intro x hx
          rcases List.mem_cons.mp hx with rfl | hx'
          · exact ⟨n1 - n2, hsub⟩
          · exact hcs' x hx'
        have hlen : ((cn, ca - da) :: cs).length + ds.length ≤ n := by
          simp only [List.length_cons] at hn ⊢
          omega
        obtain ⟨ihL, ihN, ihK, ihS⟩ := ih ((cn, ca - da) :: cs) ds hlen hcs2 hds'
        refine ⟨?_, ?_, ?_, ?_⟩
        · simp only [List.length_cons] at ihL ⊢
          omega
        · intro t ht
          rcases List.mem_cons.mp ht with rfl | ht'
          · exact ⟨⟨(cn, ca), List.mem_cons_self _ _, rfl⟩,
              ⟨(dn, da), List.mem_cons_self _ _, rfl⟩, ⟨n2, hn2'⟩⟩
          · obtain ⟨⟨x, hx, hxe⟩, ⟨y, hy, hye⟩, hamt⟩ := ihN t ht'
            refine ⟨?_, ⟨y, List.mem_cons_of_mem _ hy, hye⟩, hamt⟩
            rcases List.mem_cons.mp hx with rfl | hx'
            · exact ⟨(cn, ca), List.mem_cons_self _ _, hxe⟩
            · exact ⟨x, List.mem_cons_of_mem _ hx', hxe⟩
        · intro p
          rw [toPairs_cons, fromPairs_cons, keyedSum_cons, keyedSum_cons,
            keyedSum_cons, keyedSum_cons]
          have hK := ihK p
          rw [keyedSum_cons] at hK
          constructor
          · by_cases hp : cn = p
            · rw [if_pos hp] at hK ⊢
              rw [if_pos hp]
              linarith [hK.1]
            · rw [if_neg hp] at hK ⊢
              rw [if_neg hp]
              linarith [hK.1]
          · exact add_le_add_left hK.2 _
        · rw [sumPayments_cons, ihS, sumAmts_cons, sumAmts_cons, sumAmts_cons,
            ← min_add_add_left]
          congr 1
          ring
      · rw [if_neg hc]
        have h0 : n1 - n2 = 0 := by
          by_contra h0
          exact hc (hsub ▸ (hundredth_lt_natCast _).mpr h0)
        have heq : ca = da := by
          have h2 : n1 = n2 := by omega
          rw [hn1', hn2', h2]
        have hlen : cs.length + ds.length ≤ n := by
          simp only [List.length_cons] at hn
          omega
        obtain ⟨ihL, ihN, ihK, ihS⟩ := ih cs ds hlen hcs' hds'
        refine ⟨?_, ?_, ?_, ?_⟩
        · simp only [List.length_cons] at ihL ⊢
          omega
        · intro t ht
          rcases List.mem_cons.mp ht with rfl | ht'
          · exact ⟨⟨(cn, ca), List.mem_cons_self _ _, rfl⟩,
              ⟨(dn, da), List.mem_cons_self _ _, rfl⟩, ⟨n2, hn2'⟩⟩
          · obtain ⟨⟨x, hx, hxe⟩, ⟨y, hy, hye⟩, hamt⟩ := ihN t ht'
            exact ⟨⟨x, List.mem_cons_of_mem _ hx, hxe⟩,
              ⟨y, List.mem_cons_of_mem _ hy, hye⟩, hamt⟩
        · intro p
          rw [toPairs_cons, fromPairs_cons, keyedSum_cons, keyedSum_cons,
            keyedSum_cons, keyedSum_cons]
          have hK := ihK p
          constructor
          · by_cases hp : cn = p
            · rw [if_pos hp, if_pos hp, heq]
              linarith [hK.1]
            · rw [if_neg hp, if_neg hp]
              linarith [hK.1]
          · exact add_le_add_left hK.2 _
        · rw [sumPayments_cons, ihS, sumAmts_cons, sumAmts_cons,
            ← min_add_add_left, heq]

/-! Lemmas about the summary and the creditor/debtor work-lists. -/

lemma summaryOf_map_person (txns : List Txn) :
    (summaryOf txns).map Row.person = personsOf txns := by
  unfold summaryOf
  rw [List.map_map]
  exact List.map_id' (personsOf txns)

lemma personsOf_nodup (txns : List Txn) : (personsOf txns).Nodup := by
  unfold personsOf
  exact (List.perm_insertionSort strOrd _).nodup_iff.mpr (List.nodup_dedup _)

lemma summaryOf_person_nodup (txns : List Txn) :
    ((summaryOf txns).map Row.person).Nodup := by
  rw [summaryOf_map_person]
  exact personsOf_nodup txns

lemma summary_person_inj {txns : List Txn} {r1 r2 : Row}
    (h1 : r1 ∈ summaryOf txns) (h2 : r2 ∈ summaryOf txns)
    (hp : r1.person = r2.person) : r1 = r2 := by
  obtain ⟨p1, hp1, rfl⟩ := List.mem_map.mp h1
  obtain ⟨p2, hp2, rfl⟩ := List.mem_map.mp h2
  have hp' : p1 = p2 := hp
  subst hp'
  rfl

lemma mem_summaryOf_person {txns : List Txn} {r : Row} (hr : r ∈ summaryOf txns) :
    r.person ∈ personsOf txns := by
  rw [← summaryOf_map_person]
  exact List.mem_map.mpr ⟨r, hr, rfl⟩

lemma credRows_perm (s : List Row) :
    (credRows s).Perm (s.filter (fun r => decide (0 < r.net_balance))) :=
  List.perm_insertionSort _ _

lemma debtRows_perm (s : List Row) :
    (debtRows s).Perm (s.filter (fun r => decide (r.net_balance < 0))) :=
  List.perm_insertionSort _ _

lemma mem_credRows {s : List Row} {r : Row} :
    r ∈ credRows s ↔ r ∈ s ∧ 0 < r.net_balance := by
  rw [(credRows_perm s).mem_iff, List.mem_filter]
  simp

lemma mem_debtRows {s : List Row} {r : Row} :
    r ∈ debtRows s ↔ r ∈ s ∧ r.net_balance < 0 := by
  rw [(debtRows_perm s).mem_iff, List.mem_filter]
  simp

lemma keyedSum_perm (p : String) {l1 l2 : List (String × ℚ)} (h : l1.Perm l2) :
    keyedSum p l1 = keyedSum p l2 := by
  unfold keyedSum
  exact ((h.filter _).map _).sum_eq

lemma sumAmts_perm {l1 l2 : List (String × ℚ)} (h : l1.Perm l2) :
    sumAmts l1 = sumAmts l2 := by
  unfold sumAmts
  exact (h.map _).sum_eq

lemma keyedSum_rowMap_pos {txns : List Txn} {r : Row} (hr : r ∈ summaryOf txns)
    (q : Row → Bool) (f : Row → ℚ) (hq : q r = true) :
    keyedSum r.person (((summaryOf txns).filter q).map (fun s => (s.person, f s))) =
      f r := by
  apply keyedSum_eq_of_nodup
  · rw [List.map_map]
    have he : (((summaryOf txns).filter q).map (Prod.fst ∘ fun s => (s.person, f s))) =
        ((summaryOf txns).filter q).map Row.person := by
      apply List.map_congr_left
      intro a _
      rfl
    rw [he]
    exact List.Nodup.sublist
      (List.Sublist.map Row.person (List.filter_sublist (summaryOf txns)))
      (summaryOf_person_nodup txns)
  · exact List.mem_map.mpr ⟨r, List.mem_filter.mpr ⟨hr, hq⟩, rfl⟩

lemma keyedSum_rowMap_neg {txns : List Txn} {r : Row} (hr : r ∈ summaryOf txns)
    (q : Row → Bool) (f : Row → ℚ) (hq : q r = false) :
    keyedSum r.person (((summaryOf txns).filter q).map (fun s => (s.person, f s))) =
      0 := by
  apply keyedSum_eq_zero_of_not_mem
  intro hmem
  rw [List.map_map] at hmem
  have he : (((summaryOf txns).filter q).map (Prod.fst ∘ fun s => (s.person, f s))) =
      ((summaryOf txns).filter q).map Row.person := by
    apply List.map_congr_left
    intro a _
    rfl
  rw [he] at hmem
  obtain ⟨r', hr', hpe⟩ := List.mem_map.mp hmem
  obtain ⟨hr's, hq'⟩ := List.mem_filter.mp hr'
  have : r' = r := summary_person_inj hr's hr hpe
  subst this
  rw [hq] at hq'
  cases hq'

lemma credList_as_filter (p : String) (s : List Row) :
    keyedSum p (creditorsListOf s) =
      keyedSum p ((s.filter (fun r => decide (0 < r.net_balance))).map
        (fun r => (r.person, pyRound r.net_balance))) :=
  keyedSum_perm p (List.Perm.map _ (credRows_perm s))

lemma debtList_as_filter (p : String) (s : List Row) :
    keyedSum p (debtorsListOf s) =
      keyedSum p ((s.filter (fun r => decide (r.net_balance < 0))).map
        (fun r => (r.person, pyRound |r.net_balance|))) :=
  keyedSum_perm p (List.Perm.map _ (debtRows_perm s))

lemma keyedSum_credList_pos {txns : List Txn} {r : Row}
    (hr : r ∈ summaryOf txns) (h : 0 < r.net_balance) :
    keyedSum r.person (creditorsListOf (summaryOf txns)) = pyRound r.net_balance := by
  rw [credList_as_filter]
  exact keyedSum_rowMap_pos hr _ _ (by simpa using h)

lemma keyedSum_credList_zero {txns : List Txn} {r : Row}
    (hr : r ∈ summaryOf txns) (h : ¬ 0 < r.net_balance) :
    keyedSum r.person (creditorsListOf (summaryOf txns)) = 0 := by
  rw [credList_as_filter]
  exact keyedSum_rowMap_neg hr _ _ (by simpa using h)

lemma keyedSum_debtList_pos {txns : List Txn} {r : Row}
    (hr : r ∈ summaryOf txns) (h : r.net_balance < 0) :
    keyedSum r.person (debtorsListOf (summaryOf txns)) = pyRound |r.net_balance| := by
  rw [debtList_as_filter]
  exact keyedSum_rowMap_pos hr _ _ (by simpa using h)

lemma keyedSum_debtList_zero {txns : List Txn} {r : Row}
    (hr : r ∈ summaryOf txns) (h : ¬ r.net_balance < 0) :
    keyedSum r.person (debtorsListOf (summaryOf txns)) = 0 := by
  rw [debtList_as_filter]
  exact keyedSum_rowMap_neg hr _ _ (by simpa using h)

lemma credList_nat (s : List Row) :
    ∀ x ∈ creditorsListOf s, ∃ m : ℕ, x.2 = (m : ℚ) := by
  intro x hx
  obtain ⟨r, hr, rfl⟩ := List.mem_map.mp hx
  have := (mem_credRows.mp hr).2
  exact pyRound_exists_nat (le_of_lt this)

lemma debtList_nat (s : List Row) :
    ∀ x ∈ debtorsListOf s, ∃ m : ℕ, x.2 = (m : ℚ) := by
  intro x hx
  obtain ⟨r, hr, rfl⟩ := List.mem_map.mp hx
  exact pyRound_exists_nat (abs_nonneg _)

lemma sumAmts_credList (s : List Row) :
    sumAmts (creditorsListOf s) = creditRoundSum s := by
  unfold creditorsListOf
  rw [sumAmts_perm (List.Perm.map _ (credRows_perm s))]
  unfold sumAmts creditRoundSum
  rw [List.map_map]
  apply congrArg
  apply List.map_congr_left
  intro a _
  rfl

lemma sumAmts_debtList (s : List Row) :
    sumAmts (debtorsListOf s) = debitRoundSum s := by
  unfold debtorsListOf
  rw [sumAmts_perm (List.Perm.map _ (debtRows_perm s))]
  unfold sumAmts debitRoundSum
  rw [List.map_map]
  apply congrArg
  apply List.map_congr_left
  intro a _
  rfl

lemma credList_keys_sub {txns : List Txn} :
    ∀ x ∈ creditorsListOf (summaryOf txns), x.1 ∈ personsOf txns := by
  intro x hx
  obtain ⟨r, hr, rfl⟩ := List.mem_map.mp hx
  exact mem_summaryOf_person (mem_credRows.mp hr).1

lemma debtList_keys_sub {txns : List Txn} :
    ∀ x ∈ debtorsListOf (summaryOf txns), x.1 ∈ personsOf txns := by
  intro x hx
  obtain ⟨r, hr, rfl⟩ := List.mem_map.mp hx
  exact mem_summaryOf_person (mem_debtRows.mp hr).1

/-! Unfolding lemmas for `calculate_split`. -/

lemma calculate_split_eq_none {data : List Event} {rates : List (String × ℚ)}
    (h : transactions data rates = []) :
    calculate_split data rates = (none, []) := by
  unfold calculate_split
  rw [if_pos (by simpa using h)]

lemma calculate_split_eq_some {data : List Event} {rates : List (String × ℚ)}
    (h : transactions data rates ≠ []) :
    calculate_split data rates =
      (some (summaryOf (transactions data rates)),
        settleLoop (creditorsListOf (summaryOf (transactions data rates)))
          (debtorsListOf (summaryOf (transactions data rates)))) := by
  unfold calculate_split
  rw [if_neg (by simpa using h)]

lemma calculate_split_some_inv {data : List Event} {rates : List (String × ℚ)}
    {s : List Row} (h : (calculate_split data rates).1 = some s) :
    s = summaryOf (transactions data rates) ∧
      (calculate_split data rates).2 =
        settleLoop (creditorsListOf s) (debtorsListOf s) := by
  by_cases he : transactions data rates = []
  · rw [calculate_split_eq_none he] at h
    cases h
  · rw [calculate_split_eq_some he] at h ⊢
    cases h
    exact ⟨rfl, rfl⟩

/-! Lemmas about the event loop (`transactions`). -/

lemma mem_transactions {data : List Event} {rates : List (String × ℚ)} {t : Txn} :
    t ∈ transactions data rates ↔ ∃ e ∈ data, t ∈ eventTxns rates e := by
  unfold transactions
  rw [List.mem_flatten]
  constructor
  · rintro ⟨l, hl, ht⟩
    obtain ⟨e, he, rfl⟩ := List.mem_map.mp hl
    exact ⟨e, he, ht⟩
  · rintro ⟨e, he, ht⟩
    exact ⟨eventTxns rates e, List.mem_map.mpr ⟨e, he, rfl⟩, ht⟩

lemma eventTxns_void {rates : List (String × ℚ)} {e : Event}
    (h : e.participants.length = 0 ∨ e.amount ≤ 0) : eventTxns rates e = [] := by
  unfold eventTxns
  rw [if_pos h]

lemma eventTxns_person {rates : List (String × ℚ)} {e : Event} {t : Txn}
    (h : t ∈ eventTxns rates e) : t.person ∈ e.participants := by
  unfold eventTxns at h
  split at h
  · cases h
  · obtain ⟨p, hp, rfl⟩ := List.mem_map.mp h
    exact hp

lemma mem_personsOf {txns : List Txn} {p : String} :
    p ∈ personsOf txns ↔ p ∈ txns.map Txn.person := by
  unfold personsOf
  rw [(List.perm_insertionSort strOrd _).mem_iff, List.mem_dedup]

lemma transactions_eq_nil {rates : List (String × ℚ)} :
    ∀ {data : List Event},
      (∀ e ∈ data, e.participants.length = 0 ∨ e.amount ≤ 0) →
      transactions data rates = [] := by
  intro data
  induction data with
  | nil => intro _; rfl
  | cons e tl ih =>
    intro h
    show ((e :: tl).map (eventTxns rates)).flatten = []
    rw [List.map_cons, List.flatten_cons,
      eventTxns_void (h e (List.mem_cons_self _ _)), List.nil_append]
    exact ih (fun e' he' => h e' (List.mem_cons_of_mem _ he'))

lemma sumAmts_toPairs (pays : List Payment) :
    sumAmts (toPairs pays) = sumPayments pays := by
  unfold sumAmts toPairs sumPayments
  rw [List.map_map]
  apply congrArg
  apply List.map_congr_left
  intro a _
  rfl

lemma sumAmts_fromPairs (pays : List Payment) :
    sumAmts (fromPairs pays) = sumPayments pays := by
  unfold sumAmts fromPairs sumPayments
  rw [List.map_map]
  apply congrArg
  apply List.map_congr_left
  intro a _
  rfl

/-- When the rounded creditor total equals the rounded debtor total,
the matching loop drains every creditor entry and every debtor entry
completely: each person receives (sends) exactly their keyed total of
the corresponding work-list. -/
lemma settle_drain {txns : List Txn}
    (hEq : creditRoundSum (summaryOf txns) = debitRoundSum (summaryOf txns)) :
    ∀ r ∈ summaryOf txns,
      recvBy r.person
          (settleLoop (creditorsListOf (summaryOf txns))
            (debtorsListOf (summaryOf txns))) =
        keyedSum r.person (creditorsListOf (summaryOf txns)) ∧
      sentBy r.person
          (settleLoop (creditorsListOf (summaryOf txns))
            (debtorsListOf (summaryOf txns))) =
        keyedSum r.person (debtorsListOf (summaryOf txns)) := by
  obtain ⟨_, hN, hK, hS⟩ :=
    settleLoop_master
      ((creditorsListOf (summaryOf txns)).length +
        (debtorsListOf (summaryOf txns)).length)
      (creditorsListOf (summaryOf txns)) (debtorsListOf (summaryOf txns))
      le_rfl (credList_nat _) (debtList_nat _)
  have hsc : sumAmts (creditorsListOf (summaryOf txns)) =
      sumAmts (debtorsListOf (summaryOf txns)) := by
    rw [sumAmts_credList, sumAmts_debtList]
    exact hEq
  have hSc : sumPayments
      (settleLoop (creditorsListOf (summaryOf txns))
        (debtorsListOf (summaryOf txns))) =
      sumAmts (creditorsListOf (summaryOf txns)) := by
    rw [hS, hsc, min_self]
  have hSd : sumPayments
      (settleLoop (creditorsListOf (summaryOf txns))
        (debtorsListOf (summaryOf txns))) =
      sumAmts (debtorsListOf (summaryOf txns)) := by
    rw [hSc, hsc]
  have hkeysT : ∀ x ∈ toPairs
      (settleLoop (creditorsListOf (summaryOf txns))
        (debtorsListOf (summaryOf txns))), x.1 ∈ personsOf txns := by
    intro x hx
    obtain ⟨t, ht, rfl⟩ := List.mem_map.mp hx
    obtain ⟨⟨xc, hxc, hxe⟩, _, _⟩ := hN t ht
    show t.to_ ∈ personsOf txns
    rw [hxe]
    exact credList_keys_sub xc hxc
  have hkeysF : ∀ x ∈ fromPairs
      (settleLoop (creditorsListOf (summaryOf txns))
        (debtorsListOf (summaryOf txns))), x.1 ∈ personsOf txns := by
    intro x hx
    obtain ⟨t, ht, rfl⟩ := List.mem_map.mp hx
    obtain ⟨_, ⟨yd, hyd, hye⟩, _⟩ := hN t ht
    show t.from_ ∈ personsOf txns
    rw [hye]
    exact debtList_keys_sub yd hyd
  have hsum1 : ((personsOf txns).map (fun p => keyedSum p (toPairs
      (settleLoop (creditorsListOf (summaryOf txns))
        (debtorsListOf (summaryOf txns)))))).sum =
      ((personsOf txns).map (fun p =>
        keyedSum p (creditorsListOf (summaryOf txns)))).sum := by
    rw [sum_keyedSum_eq (personsOf_nodup txns) _ hkeysT,
      sum_keyedSum_eq (personsOf_nodup txns) _ credList_keys_sub,
      sumAmts_toPairs, hSc]
  have hsum2 : ((personsOf txns).map (fun p => keyedSum p (fromPairs
      (settleLoop (creditorsListOf (summaryOf txns))
        (debtorsListOf (summaryOf txns)))))).sum =
      ((personsOf txns).map (fun p =>
        keyedSum p (debtorsListOf (summaryOf txns)))).sum := by
    rw [sum_keyedSum_eq (personsOf_nodup txns) _ hkeysF,
      sum_keyedSum_eq (personsOf_nodup txns) _ debtList_keys_sub,
      sumAmts_fromPairs, hSd]
  have hpt := eq_of_sum_map_eq_of_le (fun p _ => (hK p).1) hsum1
  have hpf := eq_of_sum_map_eq_of_le (fun p _ => (hK p).2) hsum2
  intro r hr
  exact ⟨hpt r.person (mem_summaryOf_person hr),
    hpf r.person (mem_summaryOf_person hr)⟩

lemma calculate_split_snd_none {data : List Event} {rates : List (String × ℚ)}
    (h : transactions data rates = []) :
    (calculate_split data rates).2 = [] := by
  rw [calculate_split_eq_none h]

lemma calculate_split_snd_some {data : List Event} {rates : List (String × ℚ)}
    (h : transactions data rates ≠ []) :
    (calculate_split data rates).2 =
      settleLoop (creditorsListOf (summaryOf (transactions data rates)))
        (debtorsListOf (summaryOf (transactions data rates))) := by
  rw [calculate_split_eq_some h]

/-! The claim theorems. -/

/-- C1, counterexample: for the single event "3.9 split three ways, A
advances 3.0 and B advances 0.9" (all advances summing to the amount),
the transfers sum to 1 while the rounded creditor balances sum to 2, so
the conservation property of the claim fails as stated. -/
theorem c1_counterexample :
    ¬ (sumPayments (calculate_split [evA] []).2 =
        creditRoundSum ((calculate_split [evA] []).1.getD [])) := by
  with_unfolding_all decide

/-- C1 (amended): whenever contributions exist (the summary is
present), the sum of all transfer amounts returned by `calculate_split`
equals the minimum of the rounded creditor total and the rounded debtor
total of the summary. -/
theorem c1_transfer_sum (data : List Event) (rates : List (String × ℚ))
    (s : List Row) (h : (calculate_split data rates).1 = some s) :
    sumPayments (calculate_split data rates).2 =
      min (creditRoundSum s) (debitRoundSum s) := by
  obtain ⟨hs, hp⟩ := calculate_split_some_inv h
  subst hs
  rw [hp]
  obtain ⟨_, _, _, hS⟩ :=
    settleLoop_master
      ((creditorsListOf (summaryOf (transactions data rates))).length +
        (debtorsListOf (summaryOf (transactions data rates))).length)
      _ _ le_rfl (credList_nat _) (debtList_nat _)
  rw [hS, sumAmts_credList, sumAmts_debtList]

/-- C1, witness input for the amended theorem. -/
theorem c1_transfer_sum_witness :
    sumPayments (calculate_split [evA] []).2 =
      min (creditRoundSum [⟨"A", 3, 13/10, 17/10⟩, ⟨"B", 9/10, 13/10, -2/5⟩,
            ⟨"C", 0, 13/10, -13/10⟩])
        (debitRoundSum [⟨"A", 3, 13/10, 17/10⟩, ⟨"B", 9/10, 13/10, -2/5⟩,
            ⟨"C", 0, 13/10, -13/10⟩]) :=
  c1_transfer_sum [evA] [] _ (by with_unfolding_all decide)

/-- C2, counterexample: for the single event "0.6 split two ways, A
advances all of it", A's net balance is 0.3, the only transfer moves 0,
and the residual 0.3 exceeds the claimed 0.01 tolerance. -/
theorem c2_counterexample :
    ¬ (∀ r ∈ ((calculate_split [evB] []).1.getD []),
        |r.net_balance - (recvBy r.person (calculate_split [evB] []).2
          - sentBy r.person (calculate_split [evB] []).2)| ≤ 1/100) := by
  with_unfolding_all decide

/-- C2 (amended): when the rounded creditor total equals the rounded
debtor total, every person's net balance after applying all their
transfers is reduced to at most 0.5 (one half currency unit, the bound
forced by rounding net balances to whole units before matching). -/
theorem c2_residual_bound (data : List Event) (rates : List (String × ℚ))
    (s : List Row) (h : (calculate_split data rates).1 = some s)
    (hEq : creditRoundSum s = debitRoundSum s) :
    ∀ r ∈ s,
      |r.net_balance - (recvBy r.person (calculate_split data rates).2
        - sentBy r.person (calculate_split data rates).2)| ≤ 1/2 := by
  obtain ⟨hs, hp⟩ := calculate_split_some_inv h
  subst hs
  rw [hp]
  intro r hr
  obtain ⟨hrecv, hsent⟩ := settle_drain hEq r hr
  rw [hrecv, hsent]
  rcases lt_trichotomy r.net_balance 0 with hneg | hzero | hpos
  · rw [keyedSum_credList_zero hr (by linarith), keyedSum_debtList_pos hr hneg,
      abs_of_neg hneg]
    have h1 := abs_sub_pyRound_le (-r.net_balance)
    have h2 : r.net_balance - (0 - pyRound (-r.net_balance)) =
        -((-r.net_balance) - pyRound (-r.net_balance)) := by ring
    rw [h2, abs_neg]
    exact h1
  · rw [keyedSum_credList_zero hr (by rw [hzero]; exact lt_irrefl 0),
      keyedSum_debtList_zero hr (by rw [hzero]; exact lt_irrefl 0), hzero]
    norm_num
  · rw [keyedSum_credList_pos hr hpos, keyedSum_debtList_zero hr (by linarith)]
    have h1 := abs_sub_pyRound_le r.net_balance
    have h2 : r.net_balance - (pyRound r.net_balance - 0) =
        r.net_balance - pyRound r.net_balance := by ring
    rw [h2]
    exact h1

/-- C2, witness input for the amended theorem. -/
theorem c2_residual_bound_witness :
    |(3/10 : ℚ) - (recvBy "A" (calculate_split [evB] []).2
      - sentBy "A" (calculate_split [evB] []).2)| ≤ 1/2 :=
  c2_residual_bound [evB] [] [⟨"A", 3/5, 3/10, 3/10⟩, ⟨"B", 0, 3/10, -(3/10)⟩]
    (by with_unfolding_all decide) (by with_unfolding_all decide)
    ⟨"A", 3/5, 3/10, 3/10⟩ (by with_unfolding_all decide)

/-- C3, counterexample: the evA input produces the transfer "B pays A
0" whose amount is not strictly positive. -/
theorem c3_counterexample :
    ¬ (∀ t ∈ (calculate_split [evA] []).2, 0 < t.amount) := by
  with_unfolding_all decide

/-- C3 (amended): every transfer returned by `calculate_split` has a
nonnegative amount (zero is possible when a balance rounds to zero),
its sender is a net debtor and its recipient is a net creditor of the
summary. -/
theorem c3_transfer_signs (data : List Event) (rates : List (String × ℚ))
    (s : List Row) (h : (calculate_split data rates).1 = some s) :
    ∀ t ∈ (calculate_split data rates).2,
      0 ≤ t.amount ∧
      (∃ r ∈ s, r.person = t.from_ ∧ r.net_balance < 0) ∧
      (∃ r ∈ s, r.person = t.to_ ∧ 0 < r.net_balance) := by
  obtain ⟨hs, hp⟩ := calculate_split_some_inv h
  subst hs
  rw [hp]
  intro t ht
  obtain ⟨_, hN, _, _⟩ :=
    settleLoop_master
      ((creditorsListOf (summaryOf (transactions data rates))).length +
        (debtorsListOf (summaryOf (transactions data rates))).length)
      _ _ le_rfl (credList_nat _) (debtList_nat _)
  obtain ⟨⟨xc, hxc, hxe⟩, ⟨yd, hyd, hye⟩, ⟨m, hm⟩⟩ := hN t ht
  refine ⟨by rw [hm]; exact Nat.cast_nonneg m, ?_, ?_⟩
  · obtain ⟨r, hr, rfl⟩ := List.mem_map.mp hyd
    obtain ⟨hrs, hrneg⟩ := mem_debtRows.mp hr
    exact ⟨r, hrs, hye.symm, hrneg⟩
  · obtain ⟨r, hr, rfl⟩ := List.mem_map.mp hxc
    obtain ⟨hrs, hrpos⟩ := mem_credRows.mp hr
    exact ⟨r, hrs, hxe.symm, hrpos⟩

/-- C3, witness input for the amended theorem. -/
theorem c3_transfer_signs_witness :
    0 ≤ (1:ℚ) ∧
    (∃ r ∈ [(⟨"A", 3, 13/10, 17/10⟩ : Row), ⟨"B", 9/10, 13/10, -2/5⟩,
        ⟨"C", 0, 13/10, -13/10⟩], r.person = "C" ∧ r.net_balance < 0) ∧
    (∃ r ∈ [(⟨"A", 3, 13/10, 17/10⟩ : Row), ⟨"B", 9/10, 13/10, -2/5⟩,
        ⟨"C", 0, 13/10, -13/10⟩], r.person = "A" ∧ 0 < r.net_balance) :=
  c3_transfer_signs [evA] []
    [⟨"A", 3, 13/10, 17/10⟩, ⟨"B", 9/10, 13/10, -2/5⟩, ⟨"C", 0, 13/10, -13/10⟩]
    (by with_unfolding_all decide) ⟨"C", "A", 1⟩ (by with_unfolding_all decide)

/-- C4: the matching loop terminates (the embedding is total by
well-founded recursion on the combined list length), returns at most
(creditors + debtors - 1) transfers, and in each iteration the side
holding the minimum is reduced to a zero remainder. -/
theorem c4_loop_bound (data : List Event) (rates : List (String × ℚ)) :
    (calculate_split data rates).2.length ≤
      (credRows (summaryOf (transactions data rates))).length +
        (debtRows (summaryOf (transactions data rates))).length - 1 ∧
    ∀ ca da : ℚ, ca - min ca da = 0 ∨ da - min ca da = 0 := by
  constructor
  · by_cases he : transactions data rates = []
    · rw [calculate_split_snd_none he]
      simp
    · rw [calculate_split_snd_some he]
      obtain ⟨hL, _, _, _⟩ :=
        settleLoop_master
          ((creditorsListOf (summaryOf (transactions data rates))).length +
            (debtorsListOf (summaryOf (transactions data rates))).length)
          _ _ le_rfl (credList_nat _) (debtList_nat _)
      simpa [creditorsListOf, debtorsListOf, List.length_map] using hL
  · intro ca da
    rcases le_total ca da with h | h
    · left
      rw [min_eq_left h]
      ring
    · right
      rw [min_eq_right h]
      ring

/-- C5: each debtor sends in total at most their rounded debt
magnitude, and each creditor receives in total at most their rounded
credit. -/
theorem c5_conservation_bound (data : List Event) (rates : List (String × ℚ))
    (s : List Row) (h : (calculate_split data rates).1 = some s) :
    ∀ r ∈ s,
      (0 < r.net_balance →
        recvBy r.person (calculate_split data rates).2 ≤ pyRound r.net_balance) ∧
      (r.net_balance < 0 →
        sentBy r.person (calculate_split data rates).2 ≤ pyRound |r.net_balance|) := by
  obtain ⟨hs, hp⟩ := calculate_split_some_inv h
  subst hs
  rw [hp]
  intro r hr
  obtain ⟨_, _, hK, _⟩ :=
    settleLoop_master
      ((creditorsListOf (summaryOf (transactions data rates))).length +
        (debtorsListOf (summaryOf (transactions data rates))).length)
      _ _ le_rfl (credList_nat _) (debtList_nat _)
  constructor
  · intro hpos
    have hb := (hK r.person).1
    rw [keyedSum_credList_pos hr hpos] at hb
    exact hb
  · intro hneg
    have hb := (hK r.person).2
    rw [keyedSum_debtList_pos hr hneg] at hb
    exact hb

/-- C5, witness input. -/
theorem c5_conservation_bound_witness :
    0 < (17/10 : ℚ) ∧
    recvBy "A" (calculate_split [evA] []).2 ≤ pyRound (17/10) :=
  ⟨by norm_num,
    (c5_conservation_bound [evA] []
      [⟨"A", 3, 13/10, 17/10⟩, ⟨"B", 9/10, 13/10, -2/5⟩, ⟨"C", 0, 13/10, -13/10⟩]
      (by with_unfolding_all decide) ⟨"A", 3, 13/10, 17/10⟩
      (by with_unfolding_all decide)).1 (by norm_num)⟩

/-- C6: an event currency absent from the rate table, or carrying a
zero rate, gets multiplier 1 (silent fallback, no failure is possible
since the embedding is total); otherwise the multiplier is 1/rate; for
a non-voided event the converted total is amount x multiplier and each
participant owes the converted total divided by the participant
count. -/
theorem c6_rate_fallback (rates : List (String × ℚ)) (e : Event) :
    (rates.lookup e.currency = none → rateMultiplier rates e.currency = 1) ∧
    (rates.lookup e.currency = some 0 → rateMultiplier rates e.currency = 1) ∧
    (∀ q : ℚ, rates.lookup e.currency = some q → q ≠ 0 →
      rateMultiplier rates e.currency = 1 / q) ∧
    (e.participants.length ≠ 0 → 0 < e.amount →
      eventTxns rates e = e.participants.map (fun p =>
        ⟨p, dictGet e.paid_by p * rateMultiplier rates e.currency,
          e.amount * rateMultiplier rates e.currency / (e.participants.length : ℚ)⟩)) := by
  refine ⟨?_, ?_, ?_, ?_⟩
  · intro h
    unfold rateMultiplier
    rw [h]
  · intro h
    unfold rateMultiplier
    rw [h]
    simp
  · intro q h hq
    unfold rateMultiplier
    rw [h]
    exact if_neg hq
  · intro h1 h2
    unfold eventTxns
    rw [if_neg (by push_neg; exact ⟨h1, h2⟩)]

/-- C6, witness input. -/
theorem c6_rate_fallback_witness :
    rateMultiplier [("USD", (4:ℚ))] "USD" = 1 / 4 ∧
    eventTxns [("USD", (4:ℚ))] evUSD = evUSD.participants.map (fun p =>
      ⟨p, dictGet evUSD.paid_by p * rateMultiplier [("USD", (4:ℚ))] evUSD.currency,
        evUSD.amount * rateMultiplier [("USD", (4:ℚ))] evUSD.currency /
          (evUSD.participants.length : ℚ)⟩) :=
  ⟨(c6_rate_fallback [("USD", (4:ℚ))] evUSD).2.2.1 4
      (by with_unfolding_all decide) (by norm_num),
    (c6_rate_fallback [("USD", (4:ℚ))] evUSD).2.2.2
      (by with_unfolding_all decide) (by with_unfolding_all decide)⟩

/-- C7: an empty event list, or one whose events are all voided (zero
participants or non-positive amount), yields an absent summary and no
transfers; a voided event contributes no tuples in any input. -/
theorem c7_empty_or_void :
    (∀ (data : List Event) (rates : List (String × ℚ)),
      (∀ e ∈ data, e.participants.length = 0 ∨ e.amount ≤ 0) →
      calculate_split data rates = (none, [])) ∧
    (∀ (rates : List (String × ℚ)) (e : Event),
      e.participants.length = 0 ∨ e.amount ≤ 0 → eventTxns rates e = []) :=
  ⟨fun _ _ h => calculate_split_eq_none (transactions_eq_nil h),
    fun _ _ h => eventTxns_void h⟩

/-- C7, witness input. -/
theorem c7_empty_or_void_witness :
    calculate_split [] [] = (none, []) ∧
    calculate_split [evVoid] [] = (none, []) ∧
    eventTxns [] evVoid = [] :=
  ⟨c7_empty_or_void.1 [] [] (by with_unfolding_all decide),
    c7_empty_or_void.1 [evVoid] [] (by with_unfolding_all decide),
    c7_empty_or_void.2 [] evVoid (by with_unfolding_all decide)⟩

/-- C8: the settlement engine is deterministic - equal event lists and
equal rate tables produce identical summaries and identical transfer
lists (the embedding is a pure function, so two invocations agree
definitionally). -/
theorem c8_deterministic (data1 data2 : List Event)
    (rates1 rates2 : List (String × ℚ)) (hd : data1 = data2)
    (hr : rates1 = rates2) :
    calculate_split data1 rates1 = calculate_split data2 rates2 := by
  subst hd
  subst hr
  rfl

/-- C8, witness input. -/
theorem c8_deterministic_witness :
    calculate_split [evA] [] = calculate_split [evA] [] :=
  c8_deterministic [evA] [evA] [] [] rfl rfl

/-- C9: the balances entering the matching loop are the summary's net
balances rounded to whole units (creditor entries carry
`pyRound net_balance`, debtor entries `pyRound |net_balance|`), and
consequently every transfer amount is a whole number of currency
units. -/
theorem c9_whole_units (data : List Event) (rates : List (String × ℚ)) :
    (∀ x ∈ creditorsListOf (summaryOf (transactions data rates)),
      ∃ r ∈ summaryOf (transactions data rates),
        0 < r.net_balance ∧ x = (r.person, pyRound r.net_balance)) ∧
    (∀ x ∈ debtorsListOf (summaryOf (transactions data rates)),
      ∃ r ∈ summaryOf (transactions data rates),
        r.net_balance < 0 ∧ x = (r.person, pyRound |r.net_balance|)) ∧
    (∀ t ∈ (calculate_split data rates).2, ∃ k : ℤ, t.amount = (k : ℚ)) := by
  refine ⟨?_, ?_, ?_⟩
  · intro x hx
    obtain ⟨r, hr, rfl⟩ := List.mem_map.mp hx
    obtain ⟨hrs, hrpos⟩ := mem_credRows.mp hr
    exact ⟨r, hrs, hrpos, rfl⟩
  · intro x hx
    obtain ⟨r, hr, rfl⟩ := List.mem_map.mp hx
    obtain ⟨hrs, hrneg⟩ := mem_debtRows.mp hr
    exact ⟨r, hrs, hrneg, rfl⟩
  · intro t ht
    by_cases he : transactions data rates = []
    · rw [calculate_split_snd_none he] at ht
      cases ht
    · rw [calculate_split_snd_some he] at ht
      obtain ⟨_, hN, _, _⟩ :=
        settleLoop_master
          ((creditorsListOf (summaryOf (transactions data rates))).length +
            (debtorsListOf (summaryOf (transactions data rates))).length)
          _ _ le_rfl (credList_nat _) (debtList_nat _)
      obtain ⟨_, _, ⟨m, hm⟩⟩ := hN t ht
      exact ⟨(m : ℤ), by rw [hm]; norm_cast⟩

/-- C9, witness input. -/
theorem c9_whole_units_witness :
    ∃ k : ℤ, (Payment.mk "C" "A" 1).amount = (k : ℚ) :=
  (c9_whole_units [evA] []).2.2 ⟨"C", "A", 1⟩ (by with_unfolding_all decide)

/-- C10: a `paid_by` entry whose key is not among an event's
participants is completely ignored - replacing `paid_by` by any map
agreeing on the participants leaves the event's contributions
unchanged, and a person participating in no event appears neither in
the summary nor in any transfer. -/
theorem c10_nonparticipant_ignored :
    (∀ (data : List Event) (rates : List (String × ℚ)) (p : String),
      (∀ e ∈ data, p ∉ e.participants) →
      (∀ s, (calculate_split data rates).1 = some s → ∀ r ∈ s, r.person ≠ p) ∧
      (∀ t ∈ (calculate_split data rates).2, t.from_ ≠ p ∧ t.to_ ≠ p)) ∧
    (∀ (rates : List (String × ℚ)) (e : Event) (pb2 : List (String × ℚ)),
      (∀ q ∈ e.participants, pb2.lookup q = e.paid_by.lookup q) →
      eventTxns rates { e with paid_by := pb2 } = eventTxns rates e) := by
  constructor
  · intro data rates p hp
    have hnp : p ∉ personsOf (transactions data rates) := by
      intro hmem
      obtain ⟨t, ht, hte⟩ := List.mem_map.mp (mem_personsOf.mp hmem)
      obtain ⟨e, he, hte2⟩ := mem_transactions.mp ht
      exact hp e he (hte ▸ eventTxns_person hte2)
    constructor
    · intro s hs r hr hrp
      obtain ⟨hseq, _⟩ := calculate_split_some_inv hs
      subst hseq
      exact hnp (hrp ▸ mem_summaryOf_person hr)
    · intro t ht
      by_cases he : transactions data rates = []
      · rw [calculate_split_snd_none he] at ht
        cases ht
      · rw [calculate_split_snd_some he] at ht
        obtain ⟨_, hN, _, _⟩ :=
          settleLoop_master
            ((creditorsListOf (summaryOf (transactions data rates))).length +
              (debtorsListOf (summaryOf (transactions data rates))).length)
            _ _ le_rfl (credList_nat _) (debtList_nat _)
        obtain ⟨⟨xc, hxc, hxe⟩, ⟨yd, hyd, hye⟩, _⟩ := hN t ht
        constructor
        · intro hfe
          exact hnp (hfe ▸ hye ▸ debtList_keys_sub yd hyd)
        · intro hte
          exact hnp (hte ▸ hxe ▸ credList_keys_sub xc hxc)
  · intro rates e pb2 hagree
    obtain ⟨nm, am, cur, parts, pb⟩ := e
    unfold eventTxns
    simp only
    split
    · rfl
    · apply List.map_congr_left
      intro q hq
      have hd : dictGet pb2 q = dictGet pb q := by
        unfold dictGet
        rw [hagree q hq]
      rw [hd]

/-- C10, witness input. -/
theorem c10_nonparticipant_ignored_witness :
    ((⟨"A", 3, 13/10, 17/10⟩ : Row).person ≠ "D") ∧
    eventTxns [] { evA with paid_by := [("A", 3), ("B", 9/10), ("D", 5)] } =
      eventTxns [] evA :=
  ⟨(c10_nonparticipant_ignored.1 [evA] [] "D" (by with_unfolding_all decide)).1
      [⟨"A", 3, 13/10, 17/10⟩, ⟨"B", 9/10, 13/10, -2/5⟩, ⟨"C", 0, 13/10, -13/10⟩]
      (by with_unfolding_all decide) ⟨"A", 3, 13/10, 17/10⟩
      (by with_unfolding_all decide),
    c10_nonparticipant_ignored.2 [] evA [("A", 3), ("B", 9/10), ("D", 5)]
      (by with_unfolding_all decide)⟩

end SmartSplitter
